import Mathlib

/-!
Verification of the keypoint detection and description pipeline in
`src/cv_and/and_lab_5.py` (generic 2D convolution with reflect padding,
Gaussian smoothing, FAST corner candidates, Harris filtering, intensity
centroid orientation, and BRIEF binary descriptors).

Grids are modelled as total functions `Nat -> Nat -> α` together with
explicit height/width parameters; real (float) arithmetic is modelled
exactly over `ℚ` (where the claims are computational) or `ℝ` (where the
source uses transcendental functions `exp`, `cos`, `sin`, `atan2`).
-/

/-- Index into a length-`n` axis under numpy reflect padding
(`np.pad(..., mode="reflect")`): an out-of-range index is mapped back into
range by mirror reflection about the first and last samples, the edge
sample itself not being repeated; the resulting extension of the axis is
periodic with period `2*n - 2`.  For `n ≤ 1` every index maps to `0`
(numpy replicates the single sample). -/
def reflectIdx (n : ℕ) (i : ℤ) : ℕ :=
  if n ≤ 1 then 0
  else
    let p : ℤ := 2 * n - 2
    let r : ℤ := i % p
    if r < n then r.toNat else (p - r).toNat

/-- Embedding of `convolve(image, kernel)` from the source: the output cell
`(i, j)` is `np.sum(region * kernel)` where `region` is the `kh × kw` window
of the reflect-padded image starting at `(i, j)`; padded coordinate `p`
corresponds to source coordinate `reflectIdx _ (p - pad)` with
`pad_h = kh / 2`, `pad_w = kw / 2` exactly as in the source.  The source
performs no validation of the kernel shape. -/
def convolve {α : Type} [CommRing α] (H W : ℕ) (image : ℕ → ℕ → α)
    (kh kw : ℕ) (kernel : ℕ → ℕ → α) : ℕ → ℕ → α :=
  fun i j =>
    ∑ u ∈ Finset.range kh, ∑ v ∈ Finset.range kw,
      image (reflectIdx H ((i : ℤ) + (u : ℤ) - ((kh / 2 : ℕ) : ℤ)))
            (reflectIdx W ((j : ℤ) + (v : ℤ) - ((kw / 2 : ℕ) : ℤ)))
        * kernel u v

/-- Truncation toward zero of a rational number: the conversion numpy applies
(a C-style float-to-int cast) when a float value is assigned into a cell of
an integer-dtyped array.  `Int.tdiv` is truncating division, so
`truncZ (-1/2) = 0` like `int(-0.5)` in numpy (floor would give `-1`). -/
def truncZ (q : ℚ) : ℤ := q.num.tdiv q.den

/-- Embedding of `convolve` in the case where the input grid has an integer
dtype: `output = np.zeros_like(image)` is then integer-typed as well, and the
float neighborhood sum `np.sum(region * kernel)` is truncated toward zero
when stored into `output[i, j]`. -/
def convolveInt (H W : ℕ) (image : ℕ → ℕ → ℤ) (kh kw : ℕ)
    (kernel : ℕ → ℕ → ℚ) : ℕ → ℕ → ℤ :=
  fun i j =>
    truncZ (∑ u ∈ Finset.range kh, ∑ v ∈ Finset.range kw,
      ((image (reflectIdx H ((i : ℤ) + (u : ℤ) - ((kh / 2 : ℕ) : ℤ)))
              (reflectIdx W ((j : ℤ) + (v : ℤ) - ((kw / 2 : ℕ) : ℤ))) : ℚ))
        * kernel u v)

/-- Unnormalized weight of `gaussian_kernel(size, sigma)` at cell `(x, y)`
(`np.fromfunction` passes the row and column index): the standard 2D Gaussian
centered at `((size - 1)/2, (size - 1)/2)`. -/
noncomputable def gaussianWeight (size : ℕ) (sigma : ℝ) (x y : ℕ) : ℝ :=
  1 / (2 * Real.pi * sigma ^ 2) *
    Real.exp (-(((x : ℝ) - ((size : ℝ) - 1) / 2) ^ 2 +
                ((y : ℝ) - ((size : ℝ) - 1) / 2) ^ 2) / (2 * sigma ^ 2))

/-- Embedding of `gaussian_kernel(size, sigma)`: the weight grid divided by
its total sum (`kernel / np.sum(kernel)`). -/
noncomputable def gaussian_kernel (size : ℕ) (sigma : ℝ) : ℕ → ℕ → ℝ :=
  fun x y =>
    gaussianWeight size sigma x y /
      ∑ u ∈ Finset.range size, ∑ v ∈ Finset.range size, gaussianWeight size sigma u v

/-- Embedding of `gaussian_blur(image, kernel_size, sigma)`: build the
Gaussian kernel and delegate to `convolve`. -/
noncomputable def gaussian_blur (H W : ℕ) (image : ℕ → ℕ → ℝ)
    (kernel_size : ℕ) (sigma : ℝ) : ℕ → ℕ → ℝ :=
  convolve H W image kernel_size kernel_size (gaussian_kernel kernel_size sigma)

/-- The condition under which the Python slice
`image[y-radius : y+radius+1, x-radius : x+radius+1]` (with
`radius = patch_size // 2`) has shape exactly `(patch_size, patch_size)`:
the slice returns `2*radius + 1` rows and columns (which equals
`patch_size` only for odd `patch_size`) precisely when the patch lies fully
inside the `H × W` grid; a clipped slice (negative start resolving from the
end, or a stop beyond the axis) always yields a smaller patch. -/
def patchFits (H W : ℕ) (p : ℕ × ℕ) (patch_size : ℕ) : Prop :=
  patch_size % 2 = 1 ∧
  patch_size / 2 ≤ p.2 ∧ p.2 + patch_size / 2 + 1 ≤ H ∧
  patch_size / 2 ≤ p.1 ∧ p.1 + patch_size / 2 + 1 ≤ W

instance (H W : ℕ) (p : ℕ × ℕ) (patch_size : ℕ) :
    Decidable (patchFits H W p patch_size) := by
  unfold patchFits
  infer_instance

/-- First moment computed by `calculate_orientation` as
`np.sum(patch * np.arange(-radius, radius+1)[:, None])`: the column vector
of offsets broadcasts across columns, so each patch value is weighted by its
ROW offset `u - radius` from the patch center. -/
noncomputable def m10 (image : ℕ → ℕ → ℝ) (x y patch_size : ℕ) : ℝ :=
  ∑ u ∈ Finset.range patch_size, ∑ v ∈ Finset.range patch_size,
    image (y - patch_size / 2 + u) (x - patch_size / 2 + v)
      * ((u : ℝ) - ((patch_size / 2 : ℕ) : ℝ))

/-- Second moment computed by `calculate_orientation` as
`np.sum(patch * np.arange(-radius, radius+1)[None, :])`: the row vector of
offsets broadcasts across rows, so each patch value is weighted by its
COLUMN offset `v - radius` from the patch center. -/
noncomputable def m01 (image : ℕ → ℕ → ℝ) (x y patch_size : ℕ) : ℝ :=
  ∑ u ∈ Finset.range patch_size, ∑ v ∈ Finset.range patch_size,
    image (y - patch_size / 2 + u) (x - patch_size / 2 + v)
      * ((v : ℝ) - ((patch_size / 2 : ℕ) : ℝ))

/-- Two-argument arctangent with the convention of Python `math.atan2(y, x)`:
the argument of the complex number `x + i*y`, in `(-π, π]`. -/
noncomputable def atan2 (y x : ℝ) : ℝ := Complex.arg ⟨x, y⟩

/-- Orientation assigned to a single keypoint by `calculate_orientation`:
`atan2(m01, m10)` when the patch fits, and the sentinel `0` when the slice
is clipped by the grid border. -/
noncomputable def orientationOf (H W : ℕ) (image : ℕ → ℕ → ℝ)
    (patch_size : ℕ) (p : ℕ × ℕ) : ℝ :=
  if patchFits H W p patch_size then
    atan2 (m01 image p.1 p.2 patch_size) (m10 image p.1 p.2 patch_size)
  else 0

/-- Embedding of `calculate_orientation(image, keypoints, patch_size)`: one
appended value per keypoint, in order. -/
noncomputable def calculate_orientation (H W : ℕ) (image : ℕ → ℕ → ℝ)
    (keypoints : List (ℕ × ℕ)) (patch_size : ℕ) : List ℝ :=
  keypoints.map (orientationOf H W image patch_size)

/-- The 16 offsets `(dy, dx)` of the radius-3 Bresenham circle, in the order
the source lists and walks them (the source unpacks each tuple as `dy, dx`). -/
def bresenham_circle : List (ℤ × ℤ) :=
  [(0, -3), (1, -3), (2, -2), (3, -1), (3, 0), (3, 1), (2, 2), (1, 3),
   (0, 3), (-1, 3), (-2, 2), (-3, 1), (-3, 0), (-3, -1), (-2, -2), (-1, -3)]

/-- Sample of the (int32-cast) image at circle offset `(dy, dx)` around
pixel `(x, y)`: `image[y + dy, x + dx]`. -/
def circleSample (image : ℕ → ℕ → ℤ) (x y : ℕ) (off : ℤ × ℤ) : ℤ :=
  image ((y : ℤ) + off.1).toNat ((x : ℤ) + off.2).toNat

/-- Cardinal pre-filter of `detect_fast`: over the circle samples at indices
0, 8, 4, 12, count those brighter than `center + threshold` and those darker
than `center - threshold`; the pixel survives when either count reaches 3. -/
def prefilterPass (image : ℕ → ℕ → ℤ) (x y : ℕ) (threshold : ℤ) : Bool :=
  let cardinals := ([0, 8, 4, 12] : List ℕ).map fun idx =>
    circleSample image x y (bresenham_circle.getD idx (0, 0))
  decide (3 ≤ cardinals.countP fun s => decide (image y x + threshold < s)) ||
  decide (3 ≤ cardinals.countP fun s => decide (s < image y x - threshold))

/-- Per-sample test of the full 16-sample walk of `detect_fast`: the sample
differs from the center by more than the threshold in EITHER direction (the
source increments the same `sequential_count` for brighter and for darker
samples alike). -/
def circleBools (image : ℕ → ℕ → ℤ) (x y : ℕ) (threshold : ℤ) : List Bool :=
  bresenham_circle.map fun off =>
    decide (image y x + threshold < circleSample image x y off) ||
    decide (circleSample image x y off < image y x - threshold)

/-- The `sequential_count` loop of `detect_fast`: walk the booleans once in
linear order (no wrap-around), incrementing a run counter on `true`,
resetting it to 0 on `false`, and succeeding as soon as the counter
reaches `n`. -/
def seqReach (n : ℕ) : ℕ → List Bool → Bool
  | _, [] => false
  | c, b :: bs =>
      if b then (if n ≤ c + 1 then true else seqReach n (c + 1) bs)
      else seqReach n 0 bs

/-- Full per-pixel acceptance test of `detect_fast`: the cardinal pre-filter
followed by the sequential run test with run target 12. -/
def fastAccept (image : ℕ → ℕ → ℤ) (x y : ℕ) (threshold : ℤ) : Bool :=
  prefilterPass image x y threshold
    && seqReach 12 0 (circleBools image x y threshold)

/-- Embedding of `detect_fast(image, threshold)`: scan the interior pixels
(`y` in `range(3, rows-3)` outer, `x` in `range(3, cols-3)` inner) and
collect the accepted `(x, y)` pairs in scan order. -/
def detect_fast (H W : ℕ) (image : ℕ → ℕ → ℤ) (threshold : ℤ) :
    List (ℕ × ℕ) :=
  (List.range' 3 (H - 6)).flatMap fun y =>
    (List.range' 3 (W - 6)).filterMap fun x =>
      if fastAccept image x y threshold then some (x, y) else none

/-- A contiguous all-true window of length `n` in a boolean list, read
linearly (no wrap-around), located by its start index. -/
def hasWindow (n : ℕ) (bs : List Bool) : Prop :=
  ∃ i, i + n ≤ bs.length ∧ ∀ j < n, bs[i + j]? = some true

/-- Acceptance rule exactly as claim C1 words it (for comparison with the
source behavior): some start index of the 16-sample circle begins a run of
at least 12 samples, taken cyclically with wrap-around modulo 16, that are
all brighter than `center + threshold` or all darker than
`center - threshold` (one consistent polarity for the whole run). -/
def wrapConsistentRun (image : ℕ → ℕ → ℤ) (x y : ℕ) (threshold : ℤ) : Bool :=
  (List.range 16).any fun s =>
    ((List.range 12).all fun j =>
      decide (image y x + threshold <
        circleSample image x y (bresenham_circle.getD ((s + j) % 16) (0, 0)))) ||
    ((List.range 12).all fun j =>
      decide (circleSample image x y (bresenham_circle.getD ((s + j) % 16) (0, 0))
        < image y x - threshold))

/-- A 7×7 test image: center 100, and value 200 on the circle samples with
indices 10 ... 15 and 0 ... 5 (a cyclic run of 12 consistently brighter
samples that wraps around the end of the sample list), all other pixels
100.  Coordinates are (row, column) = (3 + dy, 3 + dx). -/
def imgWrap : ℕ → ℕ → ℤ := fun r c =>
  if (r, c) ∈ ([(1, 5), (0, 4), (0, 3), (0, 2), (1, 1), (2, 0), (3, 0),
      (4, 0), (5, 1), (6, 2), (6, 3), (6, 4)] : List (ℕ × ℕ)) then 200
  else 100

/-- A 7×7 test image: center 100, value 200 on the circle samples with
indices 0, 1, 3 ... 11, value 0 on circle index 2, all other pixels 100.
Indices 0 ... 11 are all over-threshold (11 brighter, 1 darker), but no 12
cyclically contiguous samples share one polarity. -/
def imgMixed : ℕ → ℕ → ℤ := fun r c =>
  if (r, c) = (5, 1) then 0
  else if (r, c) ∈ ([(3, 0), (4, 0), (6, 2), (6, 3), (6, 4), (5, 5), (4, 6),
      (3, 6), (2, 6), (1, 5), (0, 4)] : List (ℕ × ℕ)) then 200
  else 100

/-- Embedding of `np.gradient(image, axis=1)` (horizontal derivative):
central differences at interior columns, one-sided differences at the first
and last column. -/
noncomputable def npGradientX (W : ℕ) (image : ℕ → ℕ → ℝ) : ℕ → ℕ → ℝ :=
  fun i j =>
    if j = 0 then image i 1 - image i 0
    else if j = W - 1 then image i (W - 1) - image i (W - 2)
    else (image i (j + 1) - image i (j - 1)) / 2

/-- Embedding of `np.gradient(image, axis=0)` (vertical derivative). -/
noncomputable def npGradientY (H : ℕ) (image : ℕ → ℕ → ℝ) : ℕ → ℕ → ℝ :=
  fun i j =>
    if i = 0 then image 1 j - image 0 j
    else if i = H - 1 then image (H - 1) j - image (H - 2) j
    else (image (i + 1) j - image (i - 1) j) / 2

/-- The Gaussian-smoothed `Ixx = Ix**2` grid of `harris_detector`
(kernel size 5, sigma 1). -/
noncomputable def harrisIxx (H W : ℕ) (image : ℕ → ℕ → ℝ) : ℕ → ℕ → ℝ :=
  gaussian_blur H W (fun i j => npGradientX W image i j ^ 2) 5 1

/-- The Gaussian-smoothed `Iyy = Iy**2` grid of `harris_detector`. -/
noncomputable def harrisIyy (H W : ℕ) (image : ℕ → ℕ → ℝ) : ℕ → ℕ → ℝ :=
  gaussian_blur H W (fun i j => npGradientY H image i j ^ 2) 5 1

/-- The Gaussian-smoothed `Ixy = Ix * Iy` grid of `harris_detector`. -/
noncomputable def harrisIxy (H W : ℕ) (image : ℕ → ℕ → ℝ) : ℕ → ℕ → ℝ :=
  gaussian_blur H W
    (fun i j => npGradientX W image i j * npGradientY H image i j) 5 1

/-- Harris corner response of candidate `p = (x, y)`: the three smoothed
second-moment values are read at row `y`, column `x`, and
`R = det(M) - k * trace(M)^2`. -/
noncomputable def harrisResponse (H W : ℕ) (image : ℕ → ℕ → ℝ) (k : ℝ)
    (p : ℕ × ℕ) : ℝ :=
  (harrisIxx H W image p.2 p.1 * harrisIyy H W image p.2 p.1
      - harrisIxy H W image p.2 p.1 ^ 2)
    - k * (harrisIxx H W image p.2 p.1 + harrisIyy H W image p.2 p.1) ^ 2

/-- Embedding of `harris_detector(image, keypoints, k, threshold)`: keep the
candidates with response strictly above the threshold together with their
scores (`filtered_keypoints.append((x, y, R))` in a single pass), stable-sort
them by descending score (`sorted(..., key=..., reverse=True)`), then drop
the scores. -/
noncomputable def harris_detector (H W : ℕ) (image : ℕ → ℕ → ℝ)
    (keypoints : List (ℕ × ℕ)) (k threshold : ℝ) : List (ℕ × ℕ) :=
  ((keypoints.filterMap fun p =>
      if threshold < harrisResponse H W image k p then
        some (p.1, p.2, harrisResponse H W image k p)
      else none).mergeSort fun a b => decide (b.2.2 ≤ a.2.2)).map
    fun q => (q.1, q.2.1)

/-- Rounding with the convention of `np.round` (round half to even). -/
noncomputable def npRound (q : ℝ) : ℤ :=
  if q - ⌊q⌋ < 1/2 then ⌊q⌋
  else if 1/2 < q - ⌊q⌋ then ⌊q⌋ + 1
  else if Even ⌊q⌋ then ⌊q⌋ else ⌊q⌋ + 1

/-- Rotation step of `brief_descriptor`: every sampling-pattern pair is
multiplied by the 2D rotation matrix of the keypoint angle
(`random_points @ rotation_mat.T`) and rounded to integer offsets. -/
noncomputable def rotatePattern (pattern : List (ℤ × ℤ)) (angle : ℝ) :
    List (ℤ × ℤ) :=
  pattern.map fun pr =>
    (npRound ((pr.1 : ℝ) * Real.cos angle - (pr.2 : ℝ) * Real.sin angle),
     npRound ((pr.1 : ℝ) * Real.sin angle + (pr.2 : ℝ) * Real.cos angle))

/-- Intensity of the extracted patch at patch coordinates `(py, px)`:
`patch[py, px] = image[y - radius + py, x - radius + px]` with
`radius = patch_size // 2`. -/
noncomputable def patchAt (image : ℕ → ℕ → ℝ) (x y patch_size : ℕ)
    (py px : ℤ) : ℝ :=
  image ((y : ℤ) - ((patch_size / 2 : ℕ) : ℤ) + py).toNat
        ((x : ℤ) - ((patch_size / 2 : ℕ) : ℤ) + px).toNat

/-- Bounds test of one rotated pair in `brief_descriptor`:
`0 <= px1 < patch_size and 0 <= py1 < patch_size and 0 <= px2 < patch_size
and 0 <= py2 < patch_size` with `px1, py1 = radius + dx, radius + dy` and
`px2, py2 = radius - dx, radius - dy`. -/
def briefInBounds (patch_size : ℕ) (d : ℤ × ℤ) : Prop :=
  0 ≤ ((patch_size / 2 : ℕ) : ℤ) + d.1 ∧
  ((patch_size / 2 : ℕ) : ℤ) + d.1 < (patch_size : ℤ) ∧
  0 ≤ ((patch_size / 2 : ℕ) : ℤ) + d.2 ∧
  ((patch_size / 2 : ℕ) : ℤ) + d.2 < (patch_size : ℤ) ∧
  0 ≤ ((patch_size / 2 : ℕ) : ℤ) - d.1 ∧
  ((patch_size / 2 : ℕ) : ℤ) - d.1 < (patch_size : ℤ) ∧
  0 ≤ ((patch_size / 2 : ℕ) : ℤ) - d.2 ∧
  ((patch_size / 2 : ℕ) : ℤ) - d.2 < (patch_size : ℤ)

instance (patch_size : ℕ) (d : ℤ × ℤ) : Decidable (briefInBounds patch_size d) := by
  unfold briefInBounds
  infer_instance

/-- Bit emitted by `brief_descriptor` for one rotated pair `d = (dx, dy)`:
`1` if `patch[radius + dy, radius + dx] > patch[radius - dy, radius - dx]`
(strictly), `0` otherwise, and `0` whenever any of the two compared patch
positions is out of the patch bounds. -/
noncomputable def briefBit (image : ℕ → ℕ → ℝ) (x y patch_size : ℕ)
    (d : ℤ × ℤ) : ℕ :=
  if briefInBounds patch_size d then
    if patchAt image x y patch_size
        (((patch_size / 2 : ℕ) : ℤ) - d.2) (((patch_size / 2 : ℕ) : ℤ) - d.1)
      < patchAt image x y patch_size
        (((patch_size / 2 : ℕ) : ℤ) + d.2) (((patch_size / 2 : ℕ) : ℤ) + d.1)
    then 1 else 0
  else 0

/-- Descriptor of one keypoint with a full patch: one bit per rotated
sampling-pattern pair, in pattern order. -/
noncomputable def briefDescOf (image : ℕ → ℕ → ℝ) (x y patch_size : ℕ)
    (pattern : List (ℤ × ℤ)) (angle : ℝ) : List ℕ :=
  (rotatePattern pattern angle).map (briefBit image x y patch_size)

/-- Embedding of `brief_descriptor(image, keypoints, orientations,
patch_size, n)` with the randomly drawn `random_points` made an explicit
`pattern` argument: keypoints and orientations are consumed in lock-step
(`zip`), a keypoint whose patch is clipped contributes nothing, and a
complete descriptor is appended only when its length equals `n` (always the
case when the pattern has `n` entries). -/
noncomputable def brief_descriptor (H W : ℕ) (image : ℕ → ℕ → ℝ)
    (keypoints : List (ℕ × ℕ)) (orientations : List ℝ)
    (pattern : List (ℤ × ℤ)) (patch_size n : ℕ) : List (List ℕ) :=
  (keypoints.zip orientations).filterMap fun pa =>
    if patchFits H W pa.1 patch_size then
      if (briefDescOf image pa.1.1 pa.1.2 patch_size pattern pa.2).length = n
      then some (briefDescOf image pa.1.1 pa.1.2 patch_size pattern pa.2)
      else none
    else none

/-- Convolving a constant grid with any kernel whose weights sum to `1`
reproduces the constant at every cell: each neighborhood sum collapses to
`c * (sum of weights)`. -/
theorem convolve_const {α : Type} [CommRing α] (H W kh kw : ℕ)
    (kernel : ℕ → ℕ → α)
    (hsum : (∑ u ∈ Finset.range kh, ∑ v ∈ Finset.range kw, kernel u v) = 1)
    (c : α) (i j : ℕ) :
    convolve H W (fun _ _ => c) kh kw kernel i j = c := by
  unfold convolve
  have h1 : (∑ u ∈ Finset.range kh, ∑ v ∈ Finset.range kw, c * kernel u v)
      = c * ∑ u ∈ Finset.range kh, ∑ v ∈ Finset.range kw, kernel u v := by
    rw [Finset.mul_sum]
    exact Finset.sum_congr rfl fun u _ => (Finset.mul_sum _ _ _).symm
  simp [h1, hsum]

/-- C3: for every odd-by-odd kernel whose weights sum to 1 and every constant
grid, `convolve` returns the same constant at every cell (exact in the
rational/real model of float arithmetic), border cells included: reflect
padding only ever reads existing grid values, which are all equal to the
constant. -/
theorem c3_convolve_constant {α : Type} [CommRing α] (H W kh kw : ℕ)
    (kernel : ℕ → ℕ → α) (_hkh : Odd kh) (_hkw : Odd kw)
    (hsum : (∑ u ∈ Finset.range kh, ∑ v ∈ Finset.range kw, kernel u v) = 1)
    (c : α) (i j : ℕ) :
    convolve H W (fun _ _ => c) kh kw kernel i j = c :=
  convolve_const H W kh kw kernel hsum c i j

/-- Witness for C3 at a concrete input: a 3×3 grid of fives convolved with
the 1×1 unit kernel, evaluated at the border cell `(0, 0)`. -/
theorem c3_convolve_constant_witness :
    convolve 3 3 (fun _ _ => (5 : ℚ)) 1 1 (fun _ _ => 1) 0 0 = 5 :=
  c3_convolve_constant 3 3 1 1 (fun _ _ => 1) (by decide) (by decide)
    (by simp) 5 0 0

/-- C4: `convolve` allocates `output` with `np.zeros_like(image)`, hence with
the input dtype; for an integer-typed input grid every stored cell is the
exact real-valued neighborhood sum truncated toward zero.  The remaining
conjuncts evaluate two concrete instances with the averaging kernel
`[1/4, 1/2, 1/4]`: on the integer row `[0, 1, 0]` the center cell stores `0`
although the exact convolution there is `1/2`, and on the integer row
`[-1, 0, 0]` the first cell stores `0` although the exact convolution there
is `-1/2` (truncation toward zero, where flooring would store `-1`). -/
theorem c4_convolve_int_dtype :
    (∀ (H W : ℕ) (image : ℕ → ℕ → ℤ) (kh kw : ℕ) (kernel : ℕ → ℕ → ℚ)
        (i j : ℕ),
      convolveInt H W image kh kw kernel i j
        = truncZ (convolve H W (fun a b => ((image a b : ℤ) : ℚ)) kh kw kernel i j)) ∧
    convolveInt 1 3 (fun _ j => if j = 1 then 1 else 0) 1 3
        (fun _ v => if v = 1 then (1 : ℚ)/2 else 1/4) 0 1 = 0 ∧
    convolve 1 3 (fun _ j => if j = 1 then (1 : ℚ) else 0) 1 3
        (fun _ v => if v = 1 then (1 : ℚ)/2 else 1/4) 0 1 = 1/2 ∧
    convolveInt 1 3 (fun _ j => if j = 0 then -1 else 0) 1 3
        (fun _ v => if v = 1 then (1 : ℚ)/2 else 1/4) 0 0 = 0 ∧
    convolve 1 3 (fun _ j => if j = 0 then (-1 : ℚ) else 0) 1 3
        (fun _ v => if v = 1 then (1 : ℚ)/2 else 1/4) 0 0 = -1/2 := by
  refine ⟨fun H W image kh kw kernel i j => rfl, ?_, ?_, ?_, ?_⟩ <;>
    simp [convolveInt, convolve, truncZ, reflectIdx, Finset.sum_range_succ] <;>
    first
    | decide
    | norm_num

/-- C5 counterexample: the source `convolve` performs no kernel-shape
validation at all; called with the even-dimensioned 2×2 averaging kernel on
the 2×2 grid `[[1, 2], [3, 4]]` it returns a result grid (value `5/2` at
cell `(0, 0)`, averaging the reflect-padded neighborhood) instead of
rejecting the call. -/
theorem c5_counterexample :
    convolve 2 2
      (fun i j => if i = 0 then (if j = 0 then (1 : ℚ) else 2)
                  else (if j = 0 then 3 else 4))
      2 2 (fun _ _ => (1 : ℚ)/4) 0 0 = 5/2 := by
  norm_num [convolve, reflectIdx, Finset.sum_range_succ]

/-- C5 amended: the Convolution Engine does not reject even-dimensioned
kernels; it pads by `kh / 2` and `kw / 2` and returns a result grid exactly
as for odd kernels.  In particular an even kernel whose weights sum to 1
still reproduces every constant grid. -/
theorem c5_amended_even_kernel_processed {α : Type} [CommRing α]
    (H W kh kw : ℕ) (kernel : ℕ → ℕ → α) (_hev : Even kh ∨ Even kw)
    (hsum : (∑ u ∈ Finset.range kh, ∑ v ∈ Finset.range kw, kernel u v) = 1)
    (c : α) (i j : ℕ) :
    convolve H W (fun _ _ => c) kh kw kernel i j = c :=
  convolve_const H W kh kw kernel hsum c i j

/-- Witness for the amended C5 at a concrete input: the 2×2 kernel of
quarters applied to a constant grid of sevens. -/
theorem c5_amended_witness :
    convolve 4 4 (fun _ _ => (7 : ℚ)) 2 2 (fun _ _ => (1 : ℚ)/4) 0 0 = 7 :=
  c5_amended_even_kernel_processed 4 4 2 2 (fun _ _ => (1 : ℚ)/4)
    (Or.inl (by decide)) (by norm_num [Finset.sum_range_succ]) 7 0 0

/-- Every unnormalized Gaussian weight is strictly positive when `sigma > 0`. -/
theorem gaussianWeight_pos (size : ℕ) (sigma : ℝ) (hs : 0 < sigma) (x y : ℕ) :
    0 < gaussianWeight size sigma x y := by
  unfold gaussianWeight
  positivity

/-- The total of the unnormalized Gaussian weights is strictly positive for a
nonzero kernel size and `sigma > 0`. -/
theorem gaussianWeightSum_pos (size : ℕ) (sigma : ℝ) (hs : 0 < sigma)
    (hsize : size ≠ 0) :
    0 < ∑ u ∈ Finset.range size, ∑ v ∈ Finset.range size,
          gaussianWeight size sigma u v :=
  Finset.sum_pos
    (fun u _ => Finset.sum_pos (fun v _ => gaussianWeight_pos size sigma hs u v)
      (Finset.nonempty_range_iff.mpr hsize))
    (Finset.nonempty_range_iff.mpr hsize)

/-- The unnormalized Gaussian weight is invariant under the 180-degree
rotation `(i, j) ↦ (size - 1 - i, size - 1 - j)` of the kernel grid. -/
theorem gaussianWeight_symm (size : ℕ) (sigma : ℝ) (i j : ℕ)
    (hi : i < size) (hj : j < size) :
    gaussianWeight size sigma (size - 1 - i) (size - 1 - j)
      = gaussianWeight size sigma i j := by
  unfold gaussianWeight
  have hs1 : 1 ≤ size := Nat.zero_lt_of_lt hi
  have hci : ((size - 1 - i : ℕ) : ℝ) = (size : ℝ) - 1 - i := by
    rw [Nat.cast_sub (Nat.le_sub_one_of_lt hi), Nat.cast_sub hs1]
    norm_num
  have hcj : ((size - 1 - j : ℕ) : ℝ) = (size : ℝ) - 1 - j := by
    rw [Nat.cast_sub (Nat.le_sub_one_of_lt hj), Nat.cast_sub hs1]
    norm_num
  rw [hci, hcj]
  have e1 : ((size : ℝ) - 1 - i - ((size : ℝ) - 1) / 2) ^ 2
      = ((i : ℝ) - ((size : ℝ) - 1) / 2) ^ 2 := by ring
  have e2 : ((size : ℝ) - 1 - j - ((size : ℝ) - 1) / 2) ^ 2
      = ((j : ℝ) - ((size : ℝ) - 1) / 2) ^ 2 := by ring
  rw [e1, e2]

/-- C10: for every odd size and every `sigma > 0`, the Gaussian kernel
builder is deterministic (it is a pure function of `(size, sigma)`), and the
normalized weights are strictly positive and symmetric under 180-degree
rotation about the center. -/
theorem c10_gaussian_kernel_props (size : ℕ) (sigma : ℝ)
    (hsize : Odd size) (hsigma : 0 < sigma) :
    gaussian_kernel size sigma = gaussian_kernel size sigma ∧
    (∀ i j, i < size → j < size → 0 < gaussian_kernel size sigma i j) ∧
    (∀ i j, i < size → j < size →
      gaussian_kernel size sigma i j
        = gaussian_kernel size sigma (size - 1 - i) (size - 1 - j)) := by
  have hne : size ≠ 0 := hsize.pos.ne'
  refine ⟨rfl, fun i j _ _ => ?_, fun i j hi hj => ?_⟩
  · exact div_pos (gaussianWeight_pos size sigma hsigma i j)
      (gaussianWeightSum_pos size sigma hsigma hne)
  · unfold gaussian_kernel
    rw [gaussianWeight_symm size sigma i j hi hj]

/-- Witness for C10 at the concrete kernel parameters `size = 3`,
`sigma = 1` (the parameters the Harris stage uses are `5, 1`; `3, 1` keeps
the instance small). -/
theorem c10_gaussian_kernel_props_witness :
    0 < gaussian_kernel 3 1 0 2 ∧
    gaussian_kernel 3 1 0 2 = gaussian_kernel 3 1 2 0 :=
  ⟨(c10_gaussian_kernel_props 3 1 (by decide) (by norm_num)).2.1 0 2
      (by decide) (by decide),
   (c10_gaussian_kernel_props 3 1 (by decide) (by norm_num)).2.2 0 2
      (by decide) (by decide)⟩

/-- C8: the orientation estimator returns one value per keypoint, the same
length and positionally aligned with the input sequence (element `i` of the
output is the orientation of keypoint `i`), assigns the sentinel `0` to
every keypoint whose patch would leave the grid, and drops nothing. -/
theorem c8_orientation_aligned (H W : ℕ) (image : ℕ → ℕ → ℝ)
    (keypoints : List (ℕ × ℕ)) (patch_size : ℕ) :
    (calculate_orientation H W image keypoints patch_size).length
        = keypoints.length ∧
    (∀ i : ℕ, (calculate_orientation H W image keypoints patch_size)[i]?
        = (keypoints[i]?).map (orientationOf H W image patch_size)) ∧
    (∀ p : ℕ × ℕ, ¬ patchFits H W p patch_size
        → orientationOf H W image patch_size p = 0) := by
  refine ⟨List.length_map _ _, fun i => ?_, fun p hp => ?_⟩
  · unfold calculate_orientation
    rw [List.getElem?_map]
  · unfold orientationOf
    rw [if_neg hp]

/-- Witness for C8 at a concrete input: on a 1×1 grid, the keypoint `(0, 0)`
with the default patch size 31 has a clipped patch and receives the sentinel
orientation 0, while remaining present in the aligned output. -/
theorem c8_orientation_aligned_witness :
    (calculate_orientation 1 1 (fun _ _ => (0 : ℝ)) [(0, 0)] 31)[0]?
        = some (orientationOf 1 1 (fun _ _ => (0 : ℝ)) 31 (0, 0)) ∧
    orientationOf 1 1 (fun _ _ => (0 : ℝ)) 31 (0, 0) = 0 :=
  ⟨(c8_orientation_aligned 1 1 (fun _ _ => (0 : ℝ)) [(0, 0)] 31).2.1 0,
   (c8_orientation_aligned 1 1 (fun _ _ => (0 : ℝ)) [(0, 0)] 31).2.2 (0, 0)
     (by decide)⟩

/-- C2 counterexample: a 3×3 patch (patch_size 3) whose whole intensity mass
sits exactly to the RIGHT of the center (row offset 0, column offset +1)
receives orientation `π / 2`, not approximately `0` as the claim demands:
the broadcasting in the source weights `m10` by ROW offsets and `m01` by
COLUMN offsets, the transpose of the claimed convention, so
`atan2(m01, m10) = atan2(1, 0) = π / 2`, and `π / 2 > 1` is not close
to `0` under any reasonable tolerance. -/
theorem c2_counterexample :
    calculate_orientation 3 3
        (fun r c => if r = 1 ∧ c = 2 then (1 : ℝ) else 0) [(1, 1)] 3
      = [Real.pi / 2] ∧ 1 < Real.pi / 2 := by
  constructor
  · have hm10 : m10 (fun r c => if r = 1 ∧ c = 2 then (1 : ℝ) else 0) 1 1 3 = 0 := by
      simp [m10, Finset.sum_range_succ]
    have hm01 : m01 (fun r c => if r = 1 ∧ c = 2 then (1 : ℝ) else 0) 1 1 3 = 1 := by
      simp [m01, Finset.sum_range_succ]
      norm_num
    unfold calculate_orientation orientationOf
    simp only [List.map]
    rw [if_pos (by decide : patchFits 3 3 (1, 1) 3)]
    have harg : atan2 (1 : ℝ) (0 : ℝ) = Real.pi / 2 := by
      unfold atan2
      exact Complex.arg_eq_pi_div_two_iff.mpr ⟨rfl, one_pos⟩
    rw [hm10, hm01, harg]
  · have h3 := Real.pi_gt_three
    linarith

/-- C2 amended: the orientation estimator computes `m10` as the patch sum
weighted by the ROW offset from center and `m01` weighted by the COLUMN
offset (the transpose of the claimed convention), and returns
`atan2(m01, m10)`; consequently a patch whose intensity mass lies exactly to
the right of center (zero row-weighted moment, positive column-weighted
moment) yields orientation `π / 2`, not `0`. -/
theorem c2_amended_orientation_moments (H W : ℕ) (image : ℕ → ℕ → ℝ)
    (x y patch_size : ℕ) (hfit : patchFits H W (x, y) patch_size) :
    calculate_orientation H W image [(x, y)] patch_size
      = [atan2 (m01 image x y patch_size) (m10 image x y patch_size)] ∧
    (m10 image x y patch_size = 0 → 0 < m01 image x y patch_size →
      calculate_orientation H W image [(x, y)] patch_size = [Real.pi / 2]) := by
  have h1 : calculate_orientation H W image [(x, y)] patch_size
      = [atan2 (m01 image x y patch_size) (m10 image x y patch_size)] := by
    unfold calculate_orientation orientationOf
    simp only [List.map]
    rw [if_pos hfit]
  refine ⟨h1, fun h0 hpos => ?_⟩
  rw [h1, h0]
  have harg : atan2 (m01 image x y patch_size) 0 = Real.pi / 2 := by
    unfold atan2
    exact Complex.arg_eq_pi_div_two_iff.mpr ⟨rfl, hpos⟩
  rw [harg]

/-- Witness for the amended C2 at a concrete input: a constant 3×3 grid with
patch size 3; the keypoint `(1, 1)` has a full patch and its orientation is
`atan2(m01, m10)` with the moments as computed by the code. -/
theorem c2_amended_witness :
    calculate_orientation 3 3 (fun _ _ => (2 : ℝ)) [(1, 1)] 3
      = [atan2 (m01 (fun _ _ => (2 : ℝ)) 1 1 3)
               (m10 (fun _ _ => (2 : ℝ)) 1 1 3)] :=
  (c2_amended_orientation_moments 3 3 (fun _ _ => (2 : ℝ)) 1 1 3 (by decide)).1

/-- The run-counting loop, started with counter `c < n`, succeeds exactly
when the list prefixed with `c` virtual `true`s contains an all-true window
of length `n`. -/
theorem seqReach_iff_window (n : ℕ) (hn : 0 < n) :
    ∀ (bs : List Bool) (c : ℕ), c < n →
      (seqReach n c bs = true ↔ hasWindow n (List.replicate c true ++ bs))
  | [], c, hc => by
      constructor
      · intro h
        simp [seqReach] at h
      · rintro ⟨i, hlen, -⟩
        simp only [List.append_nil, List.length_replicate] at hlen
        exact absurd hlen (by omega)
  | true :: bs, c, hc => by
      have hrepl : List.replicate c true ++ true :: bs
          = List.replicate (c + 1) true ++ bs := by
        simp [List.replicate_succ', List.append_assoc]
      by_cases h : n ≤ c + 1
      · constructor
        · intro _
          refine ⟨0, ?_, fun j hj => ?_⟩
          · rw [hrepl]
            simp only [List.length_append, List.length_replicate]
            omega
          · rw [hrepl, List.getElem?_append_left
                (by rw [List.length_replicate]; omega),
              List.getElem?_replicate, if_pos (by omega : 0 + j < c + 1)]
        · intro _
          simp [seqReach, h]
      · have hlt : c + 1 < n := by omega
        have hstep : seqReach n c (true :: bs) = seqReach n (c + 1) bs := by
          simp [seqReach, h]
        rw [hstep, seqReach_iff_window n hn bs (c + 1) hlt, hrepl]
  | false :: bs, c, hc => by
      have hstep : seqReach n c (false :: bs) = seqReach n 0 bs := by
        simp [seqReach]
      rw [hstep, seqReach_iff_window n hn bs 0 hn]
      simp only [List.replicate_zero, List.nil_append]
      constructor
      · rintro ⟨i, hlen, hall⟩
        refine ⟨c + 1 + i, ?_, fun j hj => ?_⟩
        · simp only [List.length_append, List.length_replicate,
            List.length_cons]
          omega
        · have hj' := hall j hj
          rw [List.getElem?_append_right
              (by rw [List.length_replicate]; omega),
            List.length_replicate,
            (by omega : c + 1 + i + j - c = (i + j) + 1),
            List.getElem?_cons_succ]
          exact hj'
      · rintro ⟨i, hlen, hall⟩
        simp only [List.length_append, List.length_replicate,
          List.length_cons] at hlen
        have hge : c + 1 ≤ i := by
          by_contra hcon
          push_neg at hcon
          have hcwin : c < i + n := by omega
          have hfalse := hall (c - i) (by omega)
          rw [(by omega : i + (c - i) = c),
            List.getElem?_append_right (by rw [List.length_replicate]),
            List.length_replicate, Nat.sub_self,
            List.getElem?_cons_zero] at hfalse
          exact Bool.false_ne_true (Option.some.inj hfalse)
        refine ⟨i - (c + 1), by omega, fun j hj => ?_⟩
        have hj' := hall j hj
        rw [List.getElem?_append_right
            (by rw [List.length_replicate]; omega),
          List.length_replicate,
          (by omega : i + j - c = (i - (c + 1) + j) + 1),
          List.getElem?_cons_succ] at hj'
        exact hj'

/-- The run-counting loop from a zero counter finds exactly the linear
all-true windows of length `n`. -/
theorem seqReach_zero_iff (n : ℕ) (hn : 0 < n) (bs : List Bool) :
    seqReach n 0 bs = true ↔ hasWindow n bs := by
  simpa using seqReach_iff_window n hn bs 0 hn

/-- A pixel is in the output of `detect_fast` exactly when it lies in the
scanned interior (3-pixel border excluded) and passes the per-pixel
acceptance test. -/
theorem mem_detect_fast (H W : ℕ) (image : ℕ → ℕ → ℤ) (t : ℤ) (x y : ℕ) :
    (x, y) ∈ detect_fast H W image t ↔
      (3 ≤ y ∧ y + 3 < H ∧ 3 ≤ x ∧ x + 3 < W) ∧
        fastAccept image x y t = true := by
  simp only [detect_fast, List.mem_flatMap, List.mem_filterMap,
    List.mem_range'_1]
  constructor
  · rintro ⟨y', ⟨hy1, hy2⟩, x', ⟨hx1, hx2⟩, hsome⟩
    by_cases hacc : fastAccept image x' y' t = true
    · rw [if_pos hacc] at hsome
      have hpair := Option.some.inj hsome
      have hxx : x' = x := congrArg Prod.fst hpair
      have hyy : y' = y := congrArg Prod.snd hpair
      subst hxx
      subst hyy
      exact ⟨⟨by omega, by omega, by omega, by omega⟩, hacc⟩
    · rw [if_neg hacc] at hsome
      simp at hsome
  · rintro ⟨⟨hy3, hyH, hx3, hxW⟩, hacc⟩
    exact ⟨y, ⟨hy3, by omega⟩, x, ⟨hx3, by omega⟩, by rw [if_pos hacc]⟩

/-- C1 amended: an interior pixel that passes the cardinal pre-filter is
accepted by `detect_fast` if and only if the 16-sample circle sequence,
walked ONCE in listed order without wrap-around, contains a contiguous run
of at least 12 samples that each differ from the center by more than the
threshold in either direction (brighter and darker samples may be mixed
within one run; no consistent polarity is required). -/
theorem c1_amended_fast_linear_mixed_run (H W : ℕ) (image : ℕ → ℕ → ℤ)
    (t : ℤ) (x y : ℕ) (hy3 : 3 ≤ y) (hyH : y + 3 < H) (hx3 : 3 ≤ x)
    (hxW : x + 3 < W) (hpre : prefilterPass image x y t = true) :
    (x, y) ∈ detect_fast H W image t ↔
      hasWindow 12 (circleBools image x y t) := by
  rw [mem_detect_fast]
  unfold fastAccept
  rw [hpre, Bool.true_and, seqReach_zero_iff 12 (by norm_num)]
  constructor
  · rintro ⟨-, h⟩
    exact h
  · intro h
    exact ⟨⟨hy3, hyH, hx3, hxW⟩, h⟩

/-- C1 counterexample (both directions of the claimed equivalence fail on
the source, at threshold 30 and center pixel (3, 3)).  On `imgWrap` the
pre-filter passes and a wrapping run of 12 consistently brighter samples
exists, yet the pixel is NOT accepted: the source walks the samples once
without wrap-around, so it only ever sees two runs of length 6.  On
`imgMixed` the pre-filter passes and NO wrapping run of 12 samples of one
consistent polarity exists (the longest is 9), yet the pixel IS accepted:
the source run counter treats brighter and darker samples alike, and
samples 0 ... 11 are all over-threshold. -/
theorem c1_counterexample :
    (prefilterPass imgWrap 3 3 30 = true ∧
     wrapConsistentRun imgWrap 3 3 30 = true ∧
     (3, 3) ∉ detect_fast 7 7 imgWrap 30) ∧
    (prefilterPass imgMixed 3 3 30 = true ∧
     wrapConsistentRun imgMixed 3 3 30 = false ∧
     (3, 3) ∈ detect_fast 7 7 imgMixed 30) := by decide

/-- Witness for the amended C1 at a concrete input: the interior pixel
(3, 3) of `imgMixed` passes the pre-filter, and its acceptance is
equivalent to the existence of a linear mixed-polarity run of 12. -/
theorem c1_amended_witness :
    (3, 3) ∈ detect_fast 7 7 imgMixed 30 ↔
      hasWindow 12 (circleBools imgMixed 3 3 30) :=
  c1_amended_fast_linear_mixed_run 7 7 imgMixed 30 3 3 (by norm_num)
    (by norm_num) (by norm_num) (by norm_num) (by decide)

/-- A `filterMap` whose body is an if-then-some-else-none is the map of the
corresponding filter. -/
theorem filterMap_ite_eq_filter_map {α β : Type} (P : α → Prop)
    [DecidablePred P] (f : α → β) (l : List α) :
    (l.filterMap fun a => if P a then some (f a) else none)
      = (l.filter fun a => decide (P a)).map f := by
  induction l with
  | nil => rfl
  | cons a l ih =>
      by_cases h : P a <;>
        simp [List.filterMap_cons, List.filter_cons, h, ih]

/-- C6: the Harris filter returns exactly the candidates whose response
`R = det(M) - k * trace(M)^2` (read from the Gaussian-smoothed second-moment
grids at the candidate's coordinate) is strictly greater than the threshold
(a permutation of the filtered candidate list: nothing else enters, nothing
is dropped), arranged in descending order of response, with the score
dropped so every output element is an `(x, y)` pair. -/
theorem c6_harris_filter_sort (H W : ℕ) (image : ℕ → ℕ → ℝ)
    (keypoints : List (ℕ × ℕ)) (k threshold : ℝ) :
    (harris_detector H W image keypoints k threshold).Perm
        (keypoints.filter fun p =>
          decide (threshold < harrisResponse H W image k p)) ∧
    (harris_detector H W image keypoints k threshold).Pairwise
        (fun a b => harrisResponse H W image k b
          ≤ harrisResponse H W image k a) := by
  have hscored : (keypoints.filterMap fun p =>
      if threshold < harrisResponse H W image k p then
        some (p.1, p.2, harrisResponse H W image k p)
      else none)
      = (keypoints.filter fun p =>
          decide (threshold < harrisResponse H W image k p)).map
        (fun p => (p.1, p.2, harrisResponse H W image k p)) :=
    filterMap_ite_eq_filter_map _ _ _
  constructor
  · unfold harris_detector
    rw [hscored]
    have hperm := List.mergeSort_perm
      ((keypoints.filter fun p =>
          decide (threshold < harrisResponse H W image k p)).map
        (fun p => (p.1, p.2, harrisResponse H W image k p)))
      (fun a b => decide (b.2.2 ≤ a.2.2))
    have := hperm.map (fun q : ℕ × ℕ × ℝ => (q.1, q.2.1))
    refine this.trans ?_
    rw [List.map_map]
    have : ((fun q : ℕ × ℕ × ℝ => (q.1, q.2.1)) ∘
        fun p : ℕ × ℕ => (p.1, p.2, harrisResponse H W image k p))
        = fun p : ℕ × ℕ => (p.1, p.2) := rfl
    rw [this]
    have hid : List.map (fun p : ℕ × ℕ => (p.1, p.2))
        (keypoints.filter fun p =>
          decide (threshold < harrisResponse H W image k p))
        = keypoints.filter fun p =>
            decide (threshold < harrisResponse H W image k p) := by
      simp
    rw [hid]
  · unfold harris_detector
    have hsorted := @List.sorted_mergeSort (ℕ × ℕ × ℝ)
      (fun a b => decide (b.2.2 ≤ a.2.2))
      (fun a b c h1 h2 => by
        simp only [decide_eq_true_eq] at h1 h2 ⊢
        exact le_trans h2 h1)
      (fun a b => by
        simp only [Bool.or_eq_true, decide_eq_true_eq]
        exact (le_total b.2.2 a.2.2))
      (keypoints.filterMap fun p =>
        if threshold < harrisResponse H W image k p then
          some (p.1, p.2, harrisResponse H W image k p)
        else none)
    have hmem : ∀ q ∈ ((keypoints.filterMap fun p =>
        if threshold < harrisResponse H W image k p then
          some (p.1, p.2, harrisResponse H W image k p)
        else none).mergeSort fun a b => decide (b.2.2 ≤ a.2.2)),
        q.2.2 = harrisResponse H W image k (q.1, q.2.1) := by
      intro q hq
      have hq' := (List.mergeSort_perm _ _).mem_iff.mp hq
      rw [hscored] at hq'
      obtain ⟨p, -, hpq⟩ := List.mem_map.mp hq'
      rw [← hpq]
    rw [List.pairwise_map]
    refine hsorted.imp_of_mem ?_
    intro a b ha hb hab
    simp only [decide_eq_true_eq] at hab
    rw [← hmem a ha, ← hmem b hb]
    exact hab

/-- C7: with orientations aligned to keypoints (the input contract of the
descriptor stage) and a sampling pattern of `n` pairs, the descriptor
generator emits exactly one `n`-bit descriptor per keypoint whose full patch
fits in the grid, in the keypoints' relative order, and emits nothing at all
for a keypoint whose patch is clipped, so the output can be shorter than the
keypoint sequence. -/
theorem c7_brief_per_keypoint (H W : ℕ) (image : ℕ → ℕ → ℝ)
    (keypoints : List (ℕ × ℕ)) (orientations : List ℝ)
    (pattern : List (ℤ × ℤ)) (patch_size n : ℕ)
    (hlen : keypoints.length = orientations.length)
    (hpat : pattern.length = n) :
    brief_descriptor H W image keypoints orientations pattern patch_size n
        = ((keypoints.zip orientations).filter
            (fun pa => decide (patchFits H W pa.1 patch_size))).map
          (fun pa => briefDescOf image pa.1.1 pa.1.2 patch_size pattern pa.2) ∧
    (∀ d ∈ brief_descriptor H W image keypoints orientations pattern
        patch_size n, d.length = n) ∧
    (brief_descriptor H W image keypoints orientations pattern
        patch_size n).length
      = (keypoints.filter
          (fun p => decide (patchFits H W p patch_size))).length := by
  have hdlen : ∀ pa : (ℕ × ℕ) × ℝ,
      (briefDescOf image pa.1.1 pa.1.2 patch_size pattern pa.2).length = n := by
    intro pa
    unfold briefDescOf rotatePattern
    rw [List.length_map, List.length_map, hpat]
  have hmain : brief_descriptor H W image keypoints orientations pattern
      patch_size n
      = ((keypoints.zip orientations).filter
          (fun pa => decide (patchFits H W pa.1 patch_size))).map
        (fun pa => briefDescOf image pa.1.1 pa.1.2 patch_size pattern pa.2) := by
    unfold brief_descriptor
    rw [show (fun pa : (ℕ × ℕ) × ℝ =>
        if patchFits H W pa.1 patch_size then
          if (briefDescOf image pa.1.1 pa.1.2 patch_size pattern pa.2).length = n
          then some (briefDescOf image pa.1.1 pa.1.2 patch_size pattern pa.2)
          else none
        else none)
        = fun pa : (ℕ × ℕ) × ℝ =>
          if patchFits H W pa.1 patch_size then
            some (briefDescOf image pa.1.1 pa.1.2 patch_size pattern pa.2)
          else none from funext fun pa => by rw [if_pos (hdlen pa)]]
    exact filterMap_ite_eq_filter_map _ _ _
  refine ⟨hmain, fun d hd => ?_, ?_⟩
  · rw [hmain] at hd
    obtain ⟨pa, -, hpa⟩ := List.mem_map.mp hd
    rw [← hpa]
    exact hdlen pa
  · rw [hmain, List.length_map]
    have hfst : (keypoints.zip orientations).map Prod.fst = keypoints :=
      List.map_fst_zip keypoints orientations (le_of_eq hlen)
    calc ((keypoints.zip orientations).filter
            (fun pa => decide (patchFits H W pa.1 patch_size))).length
        = (((keypoints.zip orientations).filter
            (fun pa => decide (patchFits H W pa.1 patch_size))).map
              Prod.fst).length := (List.length_map _ _).symm
      _ = (((keypoints.zip orientations).map Prod.fst).filter
            (fun p => decide (patchFits H W p patch_size))).length := by
          rw [List.filter_map]
          rfl
      _ = (keypoints.filter
            (fun p => decide (patchFits H W p patch_size))).length := by
          rw [hfst]

/-- Witness for C7 at a concrete input: a single keypoint with a full 1×1
patch on a 1×1 grid, one pattern pair, descriptor length 1. -/
theorem c7_brief_per_keypoint_witness :
    brief_descriptor 1 1 (fun _ _ => (0 : ℝ)) [(0, 0)] [0] [(0, 0)] 1 1
      = (([(0, 0)].zip [(0 : ℝ)]).filter
          (fun pa => decide (patchFits 1 1 pa.1 1))).map
        (fun pa => briefDescOf (fun _ _ => (0 : ℝ)) pa.1.1 pa.1.2 1
          [(0, 0)] pa.2) :=
  (c7_brief_per_keypoint 1 1 (fun _ _ => (0 : ℝ)) [(0, 0)] [0] [(0, 0)] 1 1
    rfl rfl).1

/-- C9: the bit emitted for a rotated sampling pair `d = (dx, dy)` of a
keypoint with a full patch is `1` exactly when the patch intensity at
`(center + dx, center + dy)` strictly exceeds the patch intensity at
`(center - dx, center - dy)`, `0` otherwise, and `0` (a defined fallback)
whenever either compared position leaves the patch bounds after rotation;
the keypoint's descriptor is exactly the list of these bits over the
rotated pattern. -/
theorem c9_brief_bit_rule (image : ℕ → ℕ → ℝ) (x y patch_size : ℕ)
    (pattern : List (ℤ × ℤ)) (angle : ℝ) (d : ℤ × ℤ) :
    (briefInBounds patch_size d →
      briefBit image x y patch_size d
        = if patchAt image x y patch_size
              (((patch_size / 2 : ℕ) : ℤ) - d.2)
              (((patch_size / 2 : ℕ) : ℤ) - d.1)
            < patchAt image x y patch_size
              (((patch_size / 2 : ℕ) : ℤ) + d.2)
              (((patch_size / 2 : ℕ) : ℤ) + d.1)
          then 1 else 0) ∧
    (¬ briefInBounds patch_size d → briefBit image x y patch_size d = 0) ∧
    briefDescOf image x y patch_size pattern angle
      = (rotatePattern pattern angle).map (briefBit image x y patch_size) := by
  refine ⟨fun hin => ?_, fun hout => ?_, rfl⟩
  · unfold briefBit
    rw [if_pos hin]
  · unfold briefBit
    rw [if_neg hout]

/-- Witness for C9 at a concrete input: patch size 1 and the pair `(0, 0)`,
which is in bounds, so the bit is the strict comparison of the center with
itself. -/
theorem c9_brief_bit_rule_witness :
    briefBit (fun _ _ => (0 : ℝ)) 0 0 1 (0, 0)
      = if patchAt (fun _ _ => (0 : ℝ)) 0 0 1 0 0
            < patchAt (fun _ _ => (0 : ℝ)) 0 0 1 0 0
        then 1 else 0 :=
  (c9_brief_bit_rule (fun _ _ => (0 : ℝ)) 0 0 1 [] 0 (0, 0)).1 (by decide)
